import Mathlib

/-!
Verification of the layered-BFS core of the 7contactos repository.

The repository explores degrees of separation in an undirected social graph:

* 7contactosmejorado.py (SevenDegreesModel): a layered BFS kept as two Python
  sets, alcanzados (discovered) and frontera (current frontier), advanced one
  depth per simulation step, recording one metrics row per executed step and
  stopping as soon as the frontier becomes empty.
* anuimate_seven_degrees.py and viz/animacion2.py: build a distance dict with
  nx.single_source_shortest_path_length (level-by-level BFS, insertion order =
  discovery order), truncate the reached set to max_nodos nodes with a stable
  sort by the key (distance ascending, degree descending), induce a subgraph,
  split the distance dict into per-depth layers (construir_capas), and per
  animation frame recompute the discovered set as the union of layers 0..t.

The embedding below models graphs as edge lists of natural numbers (the SNAP
loader reads one undirected edge per line, in file order), Python sets as
Finset, Python dicts as insertion-ordered association lists, and the ambient
random.choice by an explicit pick parameter.
-/

/-- State of the layered BFS of SevenDegreesModel (7contactosmejorado.py):
alcanzados = all nodes discovered so far, frontera = nodes discovered at the
current depth. -/
structure BfsState where
  alcanzados : Finset ℕ
  frontera : Finset ℕ

/-- One step of SevenDegreesModel.step: the new frontier is the set of
neighbours of the current frontier that are not yet discovered, and it is
added to the discovered set. -/
def stepBFS (A : ℕ → Finset ℕ) (s : BfsState) : BfsState :=
  let nf := (s.frontera.biUnion A) \ s.alcanzados
  ⟨s.alcanzados ∪ nf, nf⟩

/-- BFS state after d steps from origin o (setup starts with both sets {o}). -/
def bfsIter (A : ℕ → Finset ℕ) (o : ℕ) : ℕ → BfsState
  | 0 => ⟨{o}, {o}⟩
  | d + 1 => stepBFS A (bfsIter A o d)

/-- Ground truth for reachability: the set of nodes reachable from o by a walk
of at most n hops, defined by unfolding the adjacency function. -/
def reachIn (A : ℕ → Finset ℕ) (o : ℕ) : ℕ → Finset ℕ
  | 0 => {o}
  | n + 1 => reachIn A o n ∪ (reachIn A o n).biUnion A

/-- Ground truth for hop counts: Walk A u v n holds when there is a walk of
exactly n hops from u to v along the adjacency function A. -/
inductive Walk (A : ℕ → Finset ℕ) : ℕ → ℕ → ℕ → Prop
  | refl (u : ℕ) : Walk A u u 0
  | cons {u v w n} : v ∈ A u → Walk A v w n → Walk A u w (n + 1)

/-- Predecessor ball: empty below depth 0, otherwise the ball of radius d-1. -/
def reachPred (A : ℕ → Finset ℕ) (o : ℕ) : ℕ → Finset ℕ
  | 0 => ∅
  | d + 1 => reachIn A o d

/-- Add one neighbour to an adjacency or node list the way networkx adds dict
keys: appended at the end on first occurrence, ignored afterwards. -/
def addNbr (l : List ℕ) (w : ℕ) : List ℕ :=
  if w ∈ l then l else l ++ [w]

/-- Contribution of one undirected edge to the adjacency list of u
(nx.Graph.add_edge; a self loop contributes a single entry). -/
def adjInsert (u : ℕ) (a : List ℕ) (e : ℕ × ℕ) : List ℕ :=
  if e.1 = u then addNbr a e.2
  else if e.2 = u then addNbr a e.1
  else a

/-- Adjacency list of u for the graph read from the edge list E in file order
(nx.read_edgelist builds the adjacency dicts in insertion order). -/
def adjOf (E : List (ℕ × ℕ)) (u : ℕ) : List ℕ :=
  E.foldl (adjInsert u) []

/-- Node list of the graph, in networkx insertion order (add_edge inserts the
first endpoint, then the second). -/
def nodesOf (E : List (ℕ × ℕ)) : List ℕ :=
  E.foldl (fun ns e => addNbr (addNbr ns e.1) e.2) []

/-- nx.Graph.degree: number of adjacent nodes, a self loop counted twice. -/
def degOf (E : List (ℕ × ℕ)) (u : ℕ) : ℕ :=
  (adjOf E u).length + (if u ∈ adjOf E u then 1 else 0)

/-- Finset adjacency induced by an adjacency-list function; connects the list
model of the animation scripts with the set model of SevenDegreesModel. -/
def adjF (adj : ℕ → List ℕ) : ℕ → Finset ℕ :=
  fun u => (adj u).toFinset

/-- Scan a neighbour list against the seen set, returning the grown seen set
and the freshly discovered nodes in scan order. -/
def addNbrs (seen : List ℕ) : List ℕ → List ℕ × List ℕ
  | [] => (seen, [])
  | w :: ws =>
    if w ∈ seen then addNbrs seen ws
    else
      let p := addNbrs (w :: seen) ws
      (p.1, w :: p.2)

/-- Expand one BFS level: scan the adjacency of each frontier node in frontier
order, collecting the unseen nodes in discovery order (the inner loop of
nx.single_source_shortest_path_length). -/
def levelStep (adj : ℕ → List ℕ) (seen : List ℕ) : List ℕ → List ℕ × List ℕ
  | [] => (seen, [])
  | v :: vs =>
    let p := addNbrs seen (adj v)
    let q := levelStep adj p.1 vs
    (q.1, p.2 ++ q.2)

/-- Level-by-level BFS loop of nx.single_source_shortest_path_length: emit the
current level as (node, depth) pairs in discovery order, stop when the frontier
is empty or the cutoff is exhausted. -/
def bfsLoop (adj : ℕ → List ℕ) : ℕ → List ℕ → List ℕ → ℕ → List (ℕ × ℕ)
  | _, _, [], _ => []
  | 0, _, f, d => f.map (fun v => (v, d))
  | fuel + 1, seen, f, d =>
    f.map (fun v => (v, d)) ++
      (let p := levelStep adj seen f
       bfsLoop adj fuel p.1 p.2 (d + 1))

/-- nx.single_source_shortest_path_length(G, o, cutoff): the distance dict as
an insertion-ordered association list. -/
def shortestPathLengths (adj : ℕ → List ℕ) (o : ℕ) (cutoff : ℕ) : List (ℕ × ℕ) :=
  bfsLoop adj cutoff [o] [o] 0

/-- Python dict access dist[u] (with an unused default, as in
deg_dict.get(u, 0)): value of the first matching key. -/
def lookupD (l : List (ℕ × ℕ)) (u : ℕ) (dflt : ℕ) : ℕ :=
  match l with
  | [] => dflt
  | p :: ps => if p.1 = u then p.2 else lookupD ps u dflt

/-- The Python sort key lambda u: (dist[u], -deg_dict.get(u, 0)) of
subgrafo_por_grados, with the negated degree carried in ℤ. -/
def claveOrden (dist : List (ℕ × ℕ)) (deg : ℕ → ℕ) (u : ℕ) : ℕ × ℤ :=
  (lookupD dist u 0, -(deg u : ℤ))

/-- Comparison of two sort keys, lexicographically as Python compares tuples. -/
def claveLe (dist : List (ℕ × ℕ)) (deg : ℕ → ℕ) (u v : ℕ) : Bool :=
  decide ((claveOrden dist deg u).1 < (claveOrden dist deg v).1) ||
    (decide ((claveOrden dist deg u).1 = (claveOrden dist deg v).1) &&
      decide ((claveOrden dist deg u).2 ≤ (claveOrden dist deg v).2))

/-- Stable insertion of x into a sorted list: x goes before the first element
it compares less-or-equal to, hence before no equal element that was already
there. -/
def insertLe (le : ℕ → ℕ → Bool) (x : ℕ) : List ℕ → List ℕ
  | [] => [x]
  | y :: ys => if le x y then x :: y :: ys else y :: insertLe le x ys

/-- Stable insertion sort; for a total preorder it computes the same list as
any stable sort, in particular as Python's sorted with a key function. -/
def sortLe (le : ℕ → ℕ → Bool) : List ℕ → List ℕ
  | [] => []
  | x :: xs => insertLe le x (sortLe le xs)

/-- Node-selection step of subgrafo_por_grados (anuimate_seven_degrees.py and
viz/animacion2.py): keep the reached nodes in dict order; when there are more
than max_nodos of them, stable-sort by (distance ascending, degree descending)
and keep the first max_nodos. -/
def seleccionar (dist : List (ℕ × ℕ)) (deg : ℕ → ℕ) (cap : ℕ) : List ℕ :=
  let nodos := dist.map Prod.fst
  if cap < nodos.length then (sortLe (claveLe dist deg) nodos).take cap else nodos

/-- subgrafo_por_grados(G, origen, cutoff, max_nodos): the selected node list
(the nodes of H = G.subgraph(...), i.e. selected nodes that are nodes of G)
together with the distance dict restricted to those nodes. -/
def subgrafo_por_grados (E : List (ℕ × ℕ)) (o cutoff cap : ℕ) :
    List ℕ × List (ℕ × ℕ) :=
  let dist := shortestPathLengths (adjOf E) o cutoff
  let nodos := seleccionar dist (degOf E) cap
  let hN := nodos.filter (fun u => decide (u ∈ nodesOf E))
  (hN, dist.filter (fun p => decide (p.1 ∈ hN)))

/-- elegir_origen(G, source_id): return source_id when it is a node of the
graph, otherwise fall back to random.choice(list(G.nodes())), modelled by an
explicit pick index reduced modulo the node count. -/
def elegir_origen (E : List (ℕ × ℕ)) (source_id : Option ℕ) (pick : ℕ) : ℕ :=
  match source_id with
  | some s =>
    if s ∈ nodesOf E then s
    else (nodesOf E).getD (pick % (nodesOf E).length) 0
  | none => (nodesOf E).getD (pick % (nodesOf E).length) 0

/-- construir_capas(dist, max_grados): list of max_grados+1 sets, where the
set at index d collects the nodes whose recorded distance is d. -/
def construir_capas (dist : List (ℕ × ℕ)) (mg : ℕ) : List (Finset ℕ) :=
  dist.foldl
    (fun capas p =>
      if p.2 ≤ mg then capas.set p.2 (insert p.1 (capas.getD p.2 ∅)) else capas)
    (List.replicate (mg + 1) ∅)

/-- The discovered set as dibujar_frame recomputes it on every frame:
set().union(*capas[:t+1]). -/
def descubiertosFrame (capas : List (Finset ℕ)) (t : ℕ) : Finset ℕ :=
  (capas.take (t + 1)).foldl (· ∪ ·) ∅

/-- The incremental prefix accumulation mandated by the spec for LayerIndex:
discovered(0) = layer 0 and discovered(t) = discovered(t-1) ∪ layer(t). This
definition follows the spec's words, to be compared with descubiertosFrame. -/
def discoveredIncremental (capas : List (Finset ℕ)) : ℕ → Finset ℕ
  | 0 => capas.getD 0 ∅
  | t + 1 => discoveredIncremental capas t ∪ capas.getD (t + 1) ∅

/-- The metrics records (grado, personas_conocidas) produced by the remaining
steps of a SevenDegreesModel run: each step advances the BFS once, records,
and stops the run as soon as the frontier is empty. -/
def runFrom (A : ℕ → Finset ℕ) (s : BfsState) (t : ℕ) : ℕ → List (ℕ × ℕ)
  | 0 => []
  | fuel + 1 =>
    let s' := stepBFS A s
    if s'.frontera = ∅ then [(t + 1, s'.alcanzados.card)]
    else (t + 1, s'.alcanzados.card) :: runFrom A s' (t + 1) fuel

/-- Full metrics stream of a SevenDegreesModel run with the given step budget:
setup records depth 0, then the step loop takes over. -/
def runModel (A : ℕ → Finset ℕ) (o : ℕ) (maxSteps : ℕ) : List (ℕ × ℕ) :=
  (0, (bfsIter A o 0).alcanzados.card) :: runFrom A (bfsIter A o 0) 0 maxSteps

/-- The star graph of the spec's end-to-end example: centre 0 linked to
1, 2, 3, and 1 linked to 4, edges inserted in that order. -/
def Estar : List (ℕ × ℕ) := [(0, 1), (0, 2), (0, 3), (1, 4)]

/-- The same star centre with its spokes inserted in decreasing id order:
adjacency, and hence BFS discovery order, is 3, 2, 1. -/
def Eperm : List (ℕ × ℕ) := [(0, 3), (0, 2), (0, 1)]

lemma reachIn_subset_succ (A : ℕ → Finset ℕ) (o n : ℕ) :
    reachIn A o n ⊆ reachIn A o (n + 1) := by
  simp [reachIn]

lemma reachIn_mono (A : ℕ → Finset ℕ) (o : ℕ) {m n : ℕ} (h : m ≤ n) :
    reachIn A o m ⊆ reachIn A o n := by
  induction n with
  | zero => simp [Nat.le_zero.mp h]
  | succ n ih =>
    rcases Nat.lt_or_ge m (n + 1) with h' | h'
    · exact (ih (Nat.lt_succ_iff.mp h')).trans (reachIn_subset_succ A o n)
    · have : m = n + 1 := le_antisymm h h'
      simp [this]

lemma adj_subset_reachIn (A : ℕ → Finset ℕ) (o : ℕ) {u : ℕ} {n : ℕ}
    (hu : u ∈ reachIn A o n) : A u ⊆ reachIn A o (n + 1) := by
  intro x hx
  have : x ∈ (reachIn A o n).biUnion A := Finset.mem_biUnion.mpr ⟨u, hu, hx⟩
  simp [reachIn, this]

lemma walk_zero {A : ℕ → Finset ℕ} {u v : ℕ} (h : Walk A u v 0) : u = v := by
  cases h; rfl

lemma walk_snoc {A : ℕ → Finset ℕ} {o u v : ℕ} {n : ℕ}
    (h : Walk A o u n) (hv : v ∈ A u) : Walk A o v (n + 1) := by
  induction h with
  | refl w => exact Walk.cons hv (Walk.refl v)
  | cons h1 _ ih => exact Walk.cons h1 (ih hv)

lemma reachIn_shift {A : ℕ → Finset ℕ} {o v : ℕ} (hv : v ∈ A o) (n : ℕ) :
    reachIn A v n ⊆ reachIn A o (n + 1) := by
  induction n with
  | zero =>
    intro x hx
    have hx' : x = v := by simpa [reachIn] using hx
    subst hx'
    exact adj_subset_reachIn A o (by simp [reachIn]) hv
  | succ n ih =>
    intro x hx
    rcases (by simpa [reachIn] using hx :
        x ∈ reachIn A v n ∨ x ∈ (reachIn A v n).biUnion A) with h | h
    · exact reachIn_subset_succ A o (n + 1) (ih h)
    · rcases Finset.mem_biUnion.mp h with ⟨y, hy, hxy⟩
      exact adj_subset_reachIn A o (ih hy) hxy

lemma walk_mem_reachIn {A : ℕ → Finset ℕ} {o v : ℕ} {n : ℕ}
    (h : Walk A o v n) : v ∈ reachIn A o n := by
  induction h with
  | refl u => simp [reachIn]
  | cons h1 _ ih => exact reachIn_shift h1 _ ih

lemma mem_reachIn_walk_aux {A : ℕ → Finset ℕ} {o : ℕ} (n : ℕ) :
    ∀ {v : ℕ}, v ∈ reachIn A o n → ∃ m ≤ n, Walk A o v m := by
  induction n with
  | zero =>
    intro v hv
    have hvo : v = o := by simpa [reachIn] using hv
    subst hvo
    exact ⟨0, Nat.le_refl 0, Walk.refl v⟩
  | succ n ih =>
    intro v hv
    rcases (by simpa [reachIn] using hv :
        v ∈ reachIn A o n ∨ v ∈ (reachIn A o n).biUnion A) with h | h
    · rcases ih h with ⟨m, hm, hw⟩
      exact ⟨m, hm.trans (Nat.le_succ n), hw⟩
    · rcases Finset.mem_biUnion.mp h with ⟨u, hu, hvu⟩
      rcases ih hu with ⟨m, hm, hw⟩
      exact ⟨m + 1, Nat.succ_le_succ hm, walk_snoc hw hvu⟩

lemma mem_reachIn_iff_walk {A : ℕ → Finset ℕ} {o v : ℕ} {n : ℕ} :
    v ∈ reachIn A o n ↔ ∃ m ≤ n, Walk A o v m := by
  constructor
  · exact mem_reachIn_walk_aux n
  · rintro ⟨m, hm, hw⟩
    exact reachIn_mono A o hm (walk_mem_reachIn hw)

/-- Invariant of the layered BFS: after d steps the discovered set is exactly
the radius-d ball and the frontier is exactly the nodes whose first discovery
depth is d. -/
lemma bfsIter_spec (A : ℕ → Finset ℕ) (o : ℕ) (d : ℕ) :
    (bfsIter A o d).alcanzados = reachIn A o d ∧
      (bfsIter A o d).frontera = reachIn A o d \ reachPred A o d := by
  induction d with
  | zero => simp [bfsIter, reachIn, reachPred]
  | succ d ih =>
    obtain ⟨ha, hf⟩ := ih
    have hfront : (bfsIter A o (d + 1)).frontera
        = reachIn A o (d + 1) \ reachIn A o d := by
      show ((bfsIter A o d).frontera.biUnion A) \ (bfsIter A o d).alcanzados = _
      rw [ha, hf]
      apply Finset.ext
      intro x
      constructor
      · intro hx
        rcases Finset.mem_sdiff.mp hx with ⟨hx1, hx2⟩
        rcases Finset.mem_biUnion.mp hx1 with ⟨u, hu, hxu⟩
        have hu' : u ∈ reachIn A o d := (Finset.mem_sdiff.mp hu).1
        refine Finset.mem_sdiff.mpr ⟨?_, hx2⟩
        have hb : x ∈ (reachIn A o d).biUnion A := Finset.mem_biUnion.mpr ⟨u, hu', hxu⟩
        simp [reachIn, hb]
      · intro hx
        rcases Finset.mem_sdiff.mp hx with ⟨hx1, hx2⟩
        have hx1' : x ∈ reachIn A o d ∨ x ∈ (reachIn A o d).biUnion A := by
          simpa [reachIn] using hx1
        rcases hx1' with h | h
        · exact absurd h hx2
        · rcases Finset.mem_biUnion.mp h with ⟨u, hu, hxu⟩
          refine Finset.mem_sdiff.mpr
            ⟨Finset.mem_biUnion.mpr ⟨u, Finset.mem_sdiff.mpr ⟨hu, ?_⟩, hxu⟩, hx2⟩
          intro hu'
          cases d with
          | zero => simp [reachPred] at hu'
          | succ e =>
            exact hx2 (adj_subset_reachIn A o (by simpa [reachPred] using hu') hxu)
    refine ⟨?_, by simpa [reachPred] using hfront⟩
    show (bfsIter A o d).alcanzados ∪ (bfsIter A o (d + 1)).frontera = _
    rw [ha, hfront]
    apply Finset.ext
    intro x
    simp only [Finset.mem_union, Finset.mem_sdiff]
    constructor
    · rintro (hx | ⟨hx, _⟩)
      · exact reachIn_subset_succ A o d hx
      · exact hx
    · intro hx
      by_cases h : x ∈ reachIn A o d
      · exact Or.inl h
      · exact Or.inr ⟨hx, h⟩

lemma frontera_eq (A : ℕ → Finset ℕ) (o d : ℕ) :
    (bfsIter A o d).frontera = reachIn A o d \ reachPred A o d :=
  (bfsIter_spec A o d).2

lemma alcanzados_eq (A : ℕ → Finset ℕ) (o d : ℕ) :
    (bfsIter A o d).alcanzados = reachIn A o d :=
  (bfsIter_spec A o d).1

lemma frontera_zero (A : ℕ → Finset ℕ) (o : ℕ) :
    (bfsIter A o 0).frontera = {o} := rfl

/-- Distance characterisation: a node sits on the depth-d frontier exactly when
its shortest walk from the origin has exactly d hops. -/
lemma mem_frontera_iff (A : ℕ → Finset ℕ) (o v : ℕ) (d : ℕ) :
    v ∈ (bfsIter A o d).frontera ↔
      (Walk A o v d ∧ ∀ m, m < d → ¬ Walk A o v m) := by
  rw [frontera_eq]
  cases d with
  | zero =>
    simp only [reachPred, Finset.sdiff_empty, reachIn]
    constructor
    · intro hv
      have : v = o := by simpa using hv
      subst this
      exact ⟨Walk.refl v, fun m hm => absurd hm (Nat.not_lt_zero m)⟩
    · rintro ⟨hw, _⟩
      simp [walk_zero hw]
  | succ d =>
    simp only [reachPred, Finset.mem_sdiff]
    constructor
    · rintro ⟨hv, hnv⟩
      rcases mem_reachIn_iff_walk.mp hv with ⟨m, hm, hw⟩
      have hmd : m = d + 1 := by
        rcases Nat.lt_or_ge m (d + 1) with h | h
        · exact absurd (reachIn_mono A o (Nat.lt_succ_iff.mp h) (walk_mem_reachIn hw)) hnv
        · exact le_antisymm hm h
      subst hmd
      refine ⟨hw, fun m hm' hw' => ?_⟩
      exact hnv (reachIn_mono A o (Nat.lt_succ_iff.mp hm') (walk_mem_reachIn hw'))
    · rintro ⟨hw, hmin⟩
      refine ⟨walk_mem_reachIn hw, fun hv => ?_⟩
      rcases mem_reachIn_iff_walk.mp hv with ⟨m, hm, hw'⟩
      exact hmin m (Nat.lt_succ_of_le hm) hw'

/-- Distinct frontiers never share a node. -/
lemma frontera_disjoint (A : ℕ → Finset ℕ) (o : ℕ) {d d' : ℕ} (h : d ≠ d') :
    (bfsIter A o d).frontera ∩ (bfsIter A o d').frontera = ∅ := by
  apply Finset.eq_empty_of_forall_not_mem
  intro x hx
  rcases Finset.mem_inter.mp hx with ⟨h1, h2⟩
  rcases (mem_frontera_iff A o x d).mp h1 with ⟨hw1, hm1⟩
  rcases (mem_frontera_iff A o x d').mp h2 with ⟨hw2, hm2⟩
  rcases Nat.lt_or_ge d d' with hlt | hge
  · exact hm2 d hlt hw1
  · exact hm1 d' (lt_of_le_of_ne hge (Ne.symm h)) hw2

/-- The frontiers up to depth t partition the discovered set. -/
lemma biUnion_frontera (A : ℕ → Finset ℕ) (o t : ℕ) :
    (Finset.range (t + 1)).biUnion (fun d => (bfsIter A o d).frontera)
      = (bfsIter A o t).alcanzados := by
  induction t with
  | zero => simp [bfsIter]
  | succ t ih =>
    rw [Finset.range_succ, Finset.biUnion_insert, ih]
    show _ = (bfsIter A o t).alcanzados ∪ (bfsIter A o (t + 1)).frontera
    rw [Finset.union_comm]

/-- Once a frontier is empty, every later frontier is empty. -/
lemma frontera_empty_absorb (A : ℕ → Finset ℕ) (o : ℕ) {d : ℕ}
    (h : (bfsIter A o d).frontera = ∅) (k : ℕ) :
    (bfsIter A o (d + k)).frontera = ∅ := by
  induction k with
  | zero => simpa
  | succ k ih =>
    show ((bfsIter A o (d + k)).frontera.biUnion A) \ _ = ∅
    rw [ih]
    simp

lemma frontera_empty_ge (A : ℕ → Finset ℕ) (o : ℕ) {d e : ℕ}
    (h : (bfsIter A o d).frontera = ∅) (hde : d ≤ e) :
    (bfsIter A o e).frontera = ∅ := by
  obtain ⟨k, rfl⟩ := Nat.exists_eq_add_of_le hde
  exact frontera_empty_absorb A o h k

lemma mem_addNbr {l : List ℕ} {w x : ℕ} : x ∈ addNbr l w ↔ x ∈ l ∨ x = w := by
  by_cases h : w ∈ l
  · simp only [addNbr, if_pos h]
    constructor
    · exact Or.inl
    · rintro (hx | rfl) <;> [exact hx; exact h]
  · simp [addNbr, if_neg h]

lemma mem_adjOf_aux {u x : ℕ} (E : List (ℕ × ℕ)) :
    ∀ a : List ℕ, x ∈ E.foldl (adjInsert u) a ↔
      x ∈ a ∨ ∃ e ∈ E, (e.1 = u ∧ e.2 = x) ∨ (e.2 = u ∧ e.1 = x) := by
  induction E with
  | nil => simp
  | cons e E ih =>
    intro a
    rw [List.foldl_cons, ih]
    have hstep : x ∈ adjInsert u a e ↔
        x ∈ a ∨ (e.1 = u ∧ e.2 = x) ∨ (e.2 = u ∧ e.1 = x) := by
      unfold adjInsert
      by_cases h1 : e.1 = u
      · simp only [if_pos h1, mem_addNbr]
        constructor
        · rintro (hx | rfl)
          · exact Or.inl hx
          · exact Or.inr (Or.inl ⟨h1, rfl⟩)
        · rintro (hx | ⟨_, rfl⟩ | ⟨h2, rfl⟩)
          · exact Or.inl hx
          · exact Or.inr rfl
          · exact Or.inr (h1.trans h2.symm)
      · by_cases h2 : e.2 = u
        · simp only [if_neg h1, if_pos h2, mem_addNbr]
          constructor
          · rintro (hx | rfl)
            · exact Or.inl hx
            · exact Or.inr (Or.inr ⟨h2, rfl⟩)
          · rintro (hx | ⟨h1', _⟩ | ⟨_, rfl⟩)
            · exact Or.inl hx
            · exact absurd h1' h1
            · exact Or.inr rfl
        · simp only [if_neg h1, if_neg h2]
          constructor
          · exact fun hx => Or.inl hx
          · rintro (hx | ⟨h1', _⟩ | ⟨h2', _⟩)
            · exact hx
            · exact absurd h1' h1
            · exact absurd h2' h2
    rw [hstep, List.exists_mem_cons_iff]
    exact or_assoc

lemma mem_adjOf {E : List (ℕ × ℕ)} {u x : ℕ} :
    x ∈ adjOf E u ↔ ∃ e ∈ E, (e.1 = u ∧ e.2 = x) ∨ (e.2 = u ∧ e.1 = x) := by
  rw [adjOf, mem_adjOf_aux]
  simp

lemma mem_nodesOf_aux {x : ℕ} (E : List (ℕ × ℕ)) :
    ∀ a : List ℕ, x ∈ E.foldl (fun ns e => addNbr (addNbr ns e.1) e.2) a ↔
      x ∈ a ∨ ∃ e ∈ E, e.1 = x ∨ e.2 = x := by
  induction E with
  | nil => simp
  | cons e E ih =>
    intro a
    rw [List.foldl_cons, ih, mem_addNbr, mem_addNbr]
    constructor
    · rintro (((hx | rfl) | rfl) | ⟨e', he', h⟩)
      · exact Or.inl hx
      · exact Or.inr ⟨e, List.mem_cons_self e E, Or.inl rfl⟩
      · exact Or.inr ⟨e, List.mem_cons_self e E, Or.inr rfl⟩
      · exact Or.inr ⟨e', List.mem_cons_of_mem e he', h⟩
    · rintro (hx | ⟨e', he', h⟩)
      · exact Or.inl (Or.inl (Or.inl hx))
      · rcases List.mem_cons.mp he' with rfl | he''
        · rcases h with h | h
          · exact Or.inl (Or.inl (Or.inr h.symm))
          · exact Or.inl (Or.inr h.symm)
        · exact Or.inr ⟨e', he'', h⟩

lemma mem_nodesOf {E : List (ℕ × ℕ)} {x : ℕ} :
    x ∈ nodesOf E ↔ ∃ e ∈ E, e.1 = x ∨ e.2 = x := by
  rw [nodesOf, mem_nodesOf_aux]
  simp

/-- Every neighbour, and every node with a neighbour, is a node of the graph. -/
lemma adjOf_mem_nodesOf {E : List (ℕ × ℕ)} {u x : ℕ} (h : x ∈ adjOf E u) :
    u ∈ nodesOf E ∧ x ∈ nodesOf E := by
  rcases mem_adjOf.mp h with ⟨e, he, ⟨h1, h2⟩ | ⟨h1, h2⟩⟩
  · exact ⟨mem_nodesOf.mpr ⟨e, he, Or.inl h1⟩, mem_nodesOf.mpr ⟨e, he, Or.inr h2⟩⟩
  · exact ⟨mem_nodesOf.mpr ⟨e, he, Or.inr h1⟩, mem_nodesOf.mpr ⟨e, he, Or.inl h2⟩⟩

lemma addNbrs_spec (ws : List ℕ) : ∀ seen : List ℕ,
    (addNbrs seen ws).1.toFinset = seen.toFinset ∪ ws.toFinset ∧
      (addNbrs seen ws).2.toFinset = ws.toFinset \ seen.toFinset ∧
      (addNbrs seen ws).2.Nodup ∧
      ∀ w ∈ (addNbrs seen ws).2, w ∉ seen := by
  induction ws with
  | nil => intro seen; simp [addNbrs]
  | cons w ws ih =>
    intro seen
    by_cases h : w ∈ seen
    · obtain ⟨h1, h2, h3, h4⟩ := ih seen
      have heq : addNbrs seen (w :: ws) = addNbrs seen ws := by
        simp [addNbrs, if_pos h]
      rw [heq]
      have hw : w ∈ seen.toFinset := List.mem_toFinset.mpr h
      refine ⟨?_, ?_, h3, h4⟩
      · rw [h1, List.toFinset_cons]
        ext x
        simp only [Finset.mem_union, Finset.mem_insert]
        constructor
        · rintro (hx | hx) <;> [exact Or.inl hx; exact Or.inr (Or.inr hx)]
        · rintro (hx | rfl | hx)
          · exact Or.inl hx
          · exact Or.inl hw
          · exact Or.inr hx
      · rw [h2, List.toFinset_cons]
        ext x
        simp only [Finset.mem_sdiff, Finset.mem_insert]
        constructor
        · rintro ⟨hx, hns⟩
          exact ⟨Or.inr hx, hns⟩
        · rintro ⟨rfl | hx, hns⟩
          · exact absurd hw hns
          · exact ⟨hx, hns⟩
    · obtain ⟨h1, h2, h3, h4⟩ := ih (w :: seen)
      have heq : addNbrs seen (w :: ws)
          = ((addNbrs (w :: seen) ws).1, w :: (addNbrs (w :: seen) ws).2) := by
        simp [addNbrs, if_neg h]
      rw [heq]
      have hw : w ∉ seen.toFinset := fun hc => h (List.mem_toFinset.mp hc)
      refine ⟨?_, ?_, ?_, ?_⟩
      · rw [h1, List.toFinset_cons, List.toFinset_cons]
        ext x
        simp only [Finset.mem_union, Finset.mem_insert]
        tauto
      · rw [List.toFinset_cons, h2]
        ext x
        simp only [List.toFinset_cons, Finset.mem_insert, Finset.mem_sdiff]
        by_cases hxw : x = w
        · subst hxw
          simp [hw]
        · tauto
      · refine List.nodup_cons.mpr ⟨fun hc => ?_, h3⟩
        exact h4 w hc (List.mem_cons_self w seen)
      · intro y hy
        rcases List.mem_cons.mp hy with rfl | hy'
        · exact h
        · intro hc
          exact h4 y hy' (List.mem_cons_of_mem w hc)

lemma levelStep_spec (adj : ℕ → List ℕ) (f : List ℕ) : ∀ seen : List ℕ,
    (levelStep adj seen f).1.toFinset
        = seen.toFinset ∪ f.toFinset.biUnion (adjF adj) ∧
      (levelStep adj seen f).2.toFinset
        = f.toFinset.biUnion (adjF adj) \ seen.toFinset ∧
      (levelStep adj seen f).2.Nodup ∧
      ∀ w ∈ (levelStep adj seen f).2, w ∉ seen := by
  induction f with
  | nil => intro seen; simp [levelStep]
  | cons v vs ih =>
    intro seen
    obtain ⟨p1, p2, p3, p4⟩ := addNbrs_spec (adj v) seen
    obtain ⟨q1, q2, q3, q4⟩ := ih (addNbrs seen (adj v)).1
    have heq : levelStep adj seen (v :: vs)
        = ((levelStep adj (addNbrs seen (adj v)).1 vs).1,
            (addNbrs seen (adj v)).2 ++ (levelStep adj (addNbrs seen (adj v)).1 vs).2) :=
      rfl
    rw [heq]
    have hsubp : ∀ x ∈ (addNbrs seen (adj v)).2, x ∈ (addNbrs seen (adj v)).1 := by
      intro x hx
      have : x ∈ (addNbrs seen (adj v)).2.toFinset := List.mem_toFinset.mpr hx
      rw [p2] at this
      apply List.mem_toFinset.mp
      rw [p1]
      exact Finset.mem_union_right _ (Finset.mem_sdiff.mp this).1
    have hseenp : ∀ x ∈ seen, x ∈ (addNbrs seen (adj v)).1 := by
      intro x hx
      apply List.mem_toFinset.mp
      rw [p1]
      exact Finset.mem_union_left _ (List.mem_toFinset.mpr hx)
    refine ⟨?_, ?_, ?_, ?_⟩
    · rw [q1, p1, List.toFinset_cons, Finset.biUnion_insert]
      show seen.toFinset ∪ (adj v).toFinset ∪ _ = _
      rw [Finset.union_assoc]
      rfl
    · rw [List.toFinset_append, p2, q2, p1, List.toFinset_cons, Finset.biUnion_insert]
      ext x
      simp only [Finset.mem_union, Finset.mem_sdiff, adjF]
      tauto
    · refine List.Nodup.append p3 q3 ?_
      intro x hx hx'
      exact q4 x hx' (hsubp x hx)
    · intro y hy
      rcases List.mem_append.mp hy with hy' | hy'
      · exact p4 y hy'
      · intro hc
        exact q4 y hy' (hseenp y hc)

lemma bfsLoop_nil (adj : ℕ → List ℕ) (fuel : ℕ) (seen : List ℕ) (d : ℕ) :
    bfsLoop adj fuel seen [] d = [] := by
  cases fuel <;> rfl

lemma mem_map_pair {l : List ℕ} {d v e : ℕ} :
    (v, e) ∈ l.map (fun x => (x, d)) ↔ v ∈ l ∧ e = d := by
  constructor
  · intro h
    rcases List.mem_map.mp h with ⟨x, hx, hxe⟩
    have h1 : x = v := congrArg Prod.fst hxe
    have h2 : d = e := congrArg Prod.snd hxe
    exact ⟨h1 ▸ hx, h2.symm⟩
  · rintro ⟨hv, rfl⟩
    exact List.mem_map.mpr ⟨v, hv, rfl⟩

/-- Bridge between the two embeddings: the pairs emitted by the level-by-level
BFS loop of the animation scripts are exactly the nodes of the corresponding
set-model frontiers, up to the fuel cutoff. -/
lemma bfsLoop_mem (adj : ℕ → List ℕ) (o : ℕ) :
    ∀ (fuel : ℕ) (seen f : List ℕ) (d : ℕ),
      seen.toFinset = (bfsIter (adjF adj) o d).alcanzados →
      f.toFinset = (bfsIter (adjF adj) o d).frontera →
      ∀ v e, ((v, e) ∈ bfsLoop adj fuel seen f d ↔
        d ≤ e ∧ e ≤ d + fuel ∧ v ∈ (bfsIter (adjF adj) o e).frontera) := by
  intro fuel
  induction fuel with
  | zero =>
    intro seen f d _ hf v e
    cases f with
    | nil =>
      rw [bfsLoop_nil]
      simp only [List.not_mem_nil, false_iff]
      rintro ⟨h1, _, h3⟩
      have hemp : (bfsIter (adjF adj) o d).frontera = ∅ := by
        rw [← hf]; rfl
      rw [frontera_empty_ge _ _ hemp h1] at h3
      exact absurd h3 (Finset.not_mem_empty v)
    | cons w ws =>
      show (v, e) ∈ (w :: ws).map (fun x => (x, d)) ↔ _
      rw [mem_map_pair]
      constructor
      · rintro ⟨hv, rfl⟩
        exact ⟨le_rfl, by omega, hf ▸ List.mem_toFinset.mpr hv⟩
      · rintro ⟨h1, h2, h3⟩
        have : e = d := by omega
        subst this
        exact ⟨List.mem_toFinset.mp (hf ▸ h3), rfl⟩
  | succ fuel ih =>
    intro seen f d hs hf v e
    cases f with
    | nil =>
      rw [bfsLoop_nil]
      simp only [List.not_mem_nil, false_iff]
      rintro ⟨h1, _, h3⟩
      have hemp : (bfsIter (adjF adj) o d).frontera = ∅ := by
        rw [← hf]; rfl
      rw [frontera_empty_ge _ _ hemp h1] at h3
      exact absurd h3 (Finset.not_mem_empty v)
    | cons w ws =>
      obtain ⟨l1, l2, _, _⟩ := levelStep_spec adj (w :: ws) seen
      have hfr : (levelStep adj seen (w :: ws)).2.toFinset
          = (bfsIter (adjF adj) o (d + 1)).frontera := by
        rw [l2, hs, hf]; rfl
      have hsn : (levelStep adj seen (w :: ws)).1.toFinset
          = (bfsIter (adjF adj) o (d + 1)).alcanzados := by
        rw [l1, hs, hf]
        show _ = (bfsIter (adjF adj) o d).alcanzados ∪ _
        rw [Finset.union_sdiff_self_eq_union]
      have heq : bfsLoop adj (fuel + 1) seen (w :: ws) d
          = (w :: ws).map (fun x => (x, d)) ++
              bfsLoop adj fuel (levelStep adj seen (w :: ws)).1
                (levelStep adj seen (w :: ws)).2 (d + 1) := rfl
      rw [heq]
      have hrec := ih (levelStep adj seen (w :: ws)).1 (levelStep adj seen (w :: ws)).2
        (d + 1) hsn hfr v e
      rw [List.mem_append, mem_map_pair, hrec]
      constructor
      · rintro (⟨hv, rfl⟩ | ⟨h1, h2, h3⟩)
        · exact ⟨le_rfl, by omega, hf ▸ List.mem_toFinset.mpr hv⟩
        · exact ⟨by omega, by omega, h3⟩
      · rintro ⟨h1, h2, h3⟩
        by_cases hed : e = d
        · subst hed
          exact Or.inl ⟨List.mem_toFinset.mp (hf ▸ h3), rfl⟩
        · exact Or.inr ⟨by omega, by omega, h3⟩

lemma levelStep_seen_sub (adj : ℕ → List ℕ) (seen f : List ℕ) :
    ∀ x ∈ seen, x ∈ (levelStep adj seen f).1 := by
  intro x hx
  obtain ⟨l1, _, _, _⟩ := levelStep_spec adj f seen
  apply List.mem_toFinset.mp
  rw [l1]
  exact Finset.mem_union_left _ (List.mem_toFinset.mpr hx)

lemma levelStep_new_sub (adj : ℕ → List ℕ) (seen f : List ℕ) :
    ∀ x ∈ (levelStep adj seen f).2, x ∈ (levelStep adj seen f).1 := by
  intro x hx
  obtain ⟨l1, l2, _, _⟩ := levelStep_spec adj f seen
  have : x ∈ (levelStep adj seen f).2.toFinset := List.mem_toFinset.mpr hx
  rw [l2] at this
  apply List.mem_toFinset.mp
  rw [l1]
  exact Finset.mem_union_right _ (Finset.mem_sdiff.mp this).1

/-- The keys emitted by the BFS loop are distinct (each node is discovered,
and hence yielded, at most once): the distance dict is a genuine dict. -/
lemma bfsLoop_keys (adj : ℕ → List ℕ) :
    ∀ (fuel : ℕ) (seen f : List ℕ) (d : ℕ),
      f.Nodup → (∀ v ∈ f, v ∈ seen) →
      ((bfsLoop adj fuel seen f d).map Prod.fst).Nodup ∧
        ∀ v ∈ (bfsLoop adj fuel seen f d).map Prod.fst, v ∈ seen → v ∈ f := by
  intro fuel
  induction fuel with
  | zero =>
    intro seen f d hnd _
    cases f with
    | nil => simp [bfsLoop_nil]
    | cons w ws =>
      have hkeys : (bfsLoop adj 0 seen (w :: ws) d).map Prod.fst = w :: ws := by
        show ((w :: ws).map (fun x => (x, d))).map Prod.fst = _
        rw [List.map_map]
        simp [Function.comp_def]
      rw [hkeys]
      exact ⟨hnd, fun v hv _ => hv⟩
  | succ fuel ih =>
    intro seen f d hnd hsub
    cases f with
    | nil => simp [bfsLoop_nil]
    | cons w ws =>
      obtain ⟨_, _, l3, l4⟩ := levelStep_spec adj (w :: ws) seen
      obtain ⟨ih1, ih2⟩ := ih (levelStep adj seen (w :: ws)).1
        (levelStep adj seen (w :: ws)).2 (d + 1) l3
        (levelStep_new_sub adj seen (w :: ws))
      have hkeys : (bfsLoop adj (fuel + 1) seen (w :: ws) d).map Prod.fst
          = (w :: ws) ++ (bfsLoop adj fuel (levelStep adj seen (w :: ws)).1
              (levelStep adj seen (w :: ws)).2 (d + 1)).map Prod.fst := by
        show (((w :: ws).map (fun x => (x, d)) ++ _).map Prod.fst) = _
        rw [List.map_append, List.map_map]
        simp [Function.comp_def]
      rw [hkeys]
      constructor
      · refine List.Nodup.append hnd ih1 ?_
        intro x hx hx'
        have hxs : x ∈ seen := hsub x hx
        have hxp : x ∈ (levelStep adj seen (w :: ws)).2 :=
          ih2 x hx' (levelStep_seen_sub adj seen (w :: ws) x hxs)
        exact l4 x hxp hxs
      · intro v hv hvseen
        rcases List.mem_append.mp hv with hv' | hv'
        · exact hv'
        · have hvp : v ∈ (levelStep adj seen (w :: ws)).2 :=
            ih2 v hv' (levelStep_seen_sub adj seen (w :: ws) v hvseen)
          exact absurd hvseen (l4 v hvp)

lemma shortestPathLengths_keys_nodup (adj : ℕ → List ℕ) (o cutoff : ℕ) :
    ((shortestPathLengths adj o cutoff).map Prod.fst).Nodup :=
  (bfsLoop_keys adj cutoff [o] [o] 0 (List.nodup_singleton o)
    (fun _ hv => hv)).1

lemma toFinset_singleton (o : ℕ) : ([o] : List ℕ).toFinset = {o} := by
  simp

/-- Bridge, at the top level: membership in the networkx distance dict is
membership in the matching set-model frontier, up to the cutoff. -/
lemma mem_shortestPathLengths (adj : ℕ → List ℕ) (o cutoff v e : ℕ) :
    (v, e) ∈ shortestPathLengths adj o cutoff ↔
      e ≤ cutoff ∧ v ∈ (bfsIter (adjF adj) o e).frontera := by
  have h := bfsLoop_mem adj o cutoff [o] [o] 0
    (by rw [toFinset_singleton]; rfl) (by rw [toFinset_singleton]; rfl) v e
  rw [shortestPathLengths, h]
  constructor
  · rintro ⟨_, h2, h3⟩
    exact ⟨by omega, h3⟩
  · rintro ⟨h1, h2⟩
    exact ⟨Nat.zero_le e, by omega, h2⟩

/-- The distance dict always starts with the origin at distance 0. -/
lemma shortestPathLengths_head (adj : ℕ → List ℕ) (o cutoff : ℕ) :
    ∃ t, shortestPathLengths adj o cutoff = (o, 0) :: t := by
  cases cutoff with
  | zero => exact ⟨[], rfl⟩
  | succ c => exact ⟨_, rfl⟩

lemma insertLe_perm (le : ℕ → ℕ → Bool) (x : ℕ) (l : List ℕ) :
    (insertLe le x l).Perm (x :: l) := by
  induction l with
  | nil => exact List.Perm.refl _
  | cons y ys ih =>
    by_cases h : le x y = true
    · rw [insertLe, if_pos h]
    · rw [insertLe, if_neg h]
      exact (List.Perm.cons y ih).trans (List.Perm.swap x y ys)

lemma sortLe_perm (le : ℕ → ℕ → Bool) (l : List ℕ) : (sortLe le l).Perm l := by
  induction l with
  | nil => exact List.Perm.refl _
  | cons x xs ih =>
    exact (insertLe_perm le x (sortLe le xs)).trans (List.Perm.cons x ih)

lemma mem_sortLe {le : ℕ → ℕ → Bool} {l : List ℕ} {x : ℕ} :
    x ∈ sortLe le l ↔ x ∈ l :=
  (sortLe_perm le l).mem_iff

lemma insertLe_pairwise (le : ℕ → ℕ → Bool)
    (htot : ∀ a b, le a b = true ∨ le b a = true)
    (htrans : ∀ a b c, le a b = true → le b c = true → le a c = true)
    (x : ℕ) (l : List ℕ) (hl : l.Pairwise (fun a b => le a b = true)) :
    (insertLe le x l).Pairwise (fun a b => le a b = true) := by
  induction l with
  | nil => simp [insertLe]
  | cons y ys ih =>
    rcases List.pairwise_cons.mp hl with ⟨hy, hys⟩
    by_cases h : le x y = true
    · rw [insertLe, if_pos h]
      refine List.pairwise_cons.mpr ⟨?_, hl⟩
      intro z hz
      rcases List.mem_cons.mp hz with rfl | hz'
      · exact h
      · exact htrans x y z h (hy z hz')
    · rw [insertLe, if_neg h]
      refine List.pairwise_cons.mpr ⟨?_, ih hys⟩
      intro z hz
      rcases List.mem_cons.mp ((insertLe_perm le x ys).mem_iff.mp hz) with rfl | hz'
      · rcases htot z y with hzy | hyz
        · exact absurd hzy h
        · exact hyz
      · exact hy z hz'

lemma sortLe_pairwise (le : ℕ → ℕ → Bool)
    (htot : ∀ a b, le a b = true ∨ le b a = true)
    (htrans : ∀ a b c, le a b = true → le b c = true → le a c = true)
    (l : List ℕ) : (sortLe le l).Pairwise (fun a b => le a b = true) := by
  induction l with
  | nil => simp [sortLe]
  | cons x xs ih => exact insertLe_pairwise le htot htrans x (sortLe le xs) ih

lemma pairwise_take_drop {R : ℕ → ℕ → Prop} {l : List ℕ} (h : l.Pairwise R)
    (n : ℕ) : ∀ a ∈ l.take n, ∀ b ∈ l.drop n, R a b := by
  have h' : (l.take n ++ l.drop n).Pairwise R := by
    rw [List.take_append_drop]
    exact h
  exact (List.pairwise_append.mp h').2.2

lemma insertLe_congr (le le' : ℕ → ℕ → Bool) (x : ℕ) (l : List ℕ)
    (h : ∀ b ∈ l, le x b = le' x b) : insertLe le x l = insertLe le' x l := by
  induction l with
  | nil => rfl
  | cons y ys ih =>
    have hy : le x y = le' x y := h y (List.mem_cons_self y ys)
    by_cases hc : le x y = true
    · rw [insertLe, insertLe, if_pos hc, if_pos (hy ▸ hc)]
    · rw [insertLe, insertLe, if_neg hc, if_neg (hy ▸ hc),
        ih (fun b hb => h b (List.mem_cons_of_mem y hb))]

lemma sortLe_congr (le le' : ℕ → ℕ → Bool) (l : List ℕ)
    (h : ∀ a ∈ l, ∀ b ∈ l, le a b = le' a b) : sortLe le l = sortLe le' l := by
  induction l with
  | nil => rfl
  | cons x xs ih =>
    rw [sortLe, sortLe,
      ih (fun a ha b hb => h a (List.mem_cons_of_mem x ha) b (List.mem_cons_of_mem x hb))]
    apply insertLe_congr
    intro b hb
    have hb' : b ∈ xs := mem_sortLe.mp hb
    exact h x (List.mem_cons_self x xs) b (List.mem_cons_of_mem x hb')

lemma claveLe_iff (dist : List (ℕ × ℕ)) (deg : ℕ → ℕ) (u v : ℕ) :
    claveLe dist deg u v = true ↔
      ((claveOrden dist deg u).1 < (claveOrden dist deg v).1 ∨
        ((claveOrden dist deg u).1 = (claveOrden dist deg v).1 ∧
          (claveOrden dist deg u).2 ≤ (claveOrden dist deg v).2)) := by
  simp [claveLe]

lemma claveLe_total (dist : List (ℕ × ℕ)) (deg : ℕ → ℕ) (a b : ℕ) :
    claveLe dist deg a b = true ∨ claveLe dist deg b a = true := by
  rw [claveLe_iff, claveLe_iff]
  omega

lemma claveLe_trans (dist : List (ℕ × ℕ)) (deg : ℕ → ℕ) (a b c : ℕ)
    (h1 : claveLe dist deg a b = true) (h2 : claveLe dist deg b c = true) :
    claveLe dist deg a c = true := by
  rw [claveLe_iff] at h1 h2 ⊢
  omega

lemma lookupD_mem {l : List (ℕ × ℕ)} {u : ℕ} (h : u ∈ l.map Prod.fst)
    (dflt : ℕ) : (u, lookupD l u dflt) ∈ l := by
  induction l with
  | nil => simp at h
  | cons p ps ih =>
    cases p with
    | mk k v =>
      by_cases hp : k = u
      · subst hp
        simp [lookupD]
      · have h' : u ∈ ps.map Prod.fst := by
          rcases List.mem_map.mp h with ⟨q, hq, hqu⟩
          rcases List.mem_cons.mp hq with rfl | hq'
          · exact absurd hqu hp
          · exact List.mem_map.mpr ⟨q, hq', hqu⟩
        have hl : lookupD ((k, v) :: ps) u dflt = lookupD ps u dflt := by
          simp [lookupD, hp]
        rw [hl]
        exact List.mem_cons_of_mem _ (ih h')

lemma lookupD_eq {l : List (ℕ × ℕ)} {u d : ℕ} (h : (u, d) ∈ l)
    (hnd : (l.map Prod.fst).Nodup) (dflt : ℕ) : lookupD l u dflt = d := by
  induction l with
  | nil => simp at h
  | cons p ps ih =>
    cases p with
    | mk k v =>
      rcases List.mem_cons.mp h with heq | h'
      · obtain ⟨rfl, rfl⟩ : k = u ∧ v = d := by
          have h1 := congrArg Prod.fst heq.symm
          have h2 := congrArg Prod.snd heq.symm
          exact ⟨h1, h2⟩
        simp [lookupD]
      · have hk : k ≠ u := by
          intro hk
          subst hk
          rcases List.pairwise_cons.mp hnd with ⟨hnin, _⟩
          exact hnin k (List.mem_map.mpr ⟨(k, d), h', rfl⟩) rfl
      
        have hl : lookupD ((k, v) :: ps) u dflt = lookupD ps u dflt := by
          simp [lookupD, hk]
        rw [hl]
        exact ih h' (List.pairwise_cons.mp hnd).2

lemma seleccionar_subset (dist : List (ℕ × ℕ)) (deg : ℕ → ℕ) (cap : ℕ) :
    ∀ u ∈ seleccionar dist deg cap, u ∈ dist.map Prod.fst := by
  intro u hu
  simp only [seleccionar] at hu
  split at hu
  · exact mem_sortLe.mp (List.mem_of_mem_take hu)
  · exact hu

lemma seleccionar_eq_of_le {dist : List (ℕ × ℕ)} {deg : ℕ → ℕ} {cap : ℕ}
    (h : ¬ cap < (dist.map Prod.fst).length) :
    seleccionar dist deg cap = dist.map Prod.fst := by
  simp only [seleccionar]
  rw [if_neg h]

lemma seleccionar_trunc {dist : List (ℕ × ℕ)} {deg : ℕ → ℕ} {cap : ℕ}
    (h : cap < (dist.map Prod.fst).length) :
    seleccionar dist deg cap
      = (sortLe (claveLe dist deg) (dist.map Prod.fst)).take cap := by
  simp only [seleccionar]
  rw [if_pos h]

lemma seleccionar_length_trunc {dist : List (ℕ × ℕ)} {deg : ℕ → ℕ} {cap : ℕ}
    (h : cap < (dist.map Prod.fst).length) :
    (seleccionar dist deg cap).length = cap := by
  rw [seleccionar_trunc h, List.length_take, (sortLe_perm _ _).length_eq]
  omega

lemma seleccionar_key_le {dist : List (ℕ × ℕ)} {deg : ℕ → ℕ} {cap : ℕ}
    (h : cap < (dist.map Prod.fst).length) :
    ∀ u ∈ seleccionar dist deg cap, ∀ v ∈ dist.map Prod.fst,
      v ∉ seleccionar dist deg cap → claveLe dist deg u v = true := by
  intro u hu v hv hvn
  rw [seleccionar_trunc h] at hu hvn
  have hvs : v ∈ sortLe (claveLe dist deg) (dist.map Prod.fst) := mem_sortLe.mpr hv
  have hvdrop : v ∈ (sortLe (claveLe dist deg) (dist.map Prod.fst)).drop cap := by
    rw [← List.take_append_drop cap (sortLe (claveLe dist deg) (dist.map Prod.fst))]
      at hvs
    rcases List.mem_append.mp hvs with h' | h'
    · exact absurd h' hvn
    · exact h'
  exact pairwise_take_drop
    (sortLe_pairwise _ (claveLe_total dist deg) (claveLe_trans dist deg) _)
    cap u hu v hvdrop

/-- A node whose key is minimal in the strong sense that every key below it
collapses to it is always retained by the truncation. -/
lemma mem_seleccionar_of_min {dist : List (ℕ × ℕ)} {deg : ℕ → ℕ} {cap : ℕ}
    {o : ℕ} (hcap : 1 ≤ cap) (ho : (o, 0) ∈ dist)
    (hnd : (dist.map Prod.fst).Nodup)
    (huniq : ∀ v, (v, 0) ∈ dist → v = o) :
    o ∈ seleccionar dist deg cap := by
  have homem : o ∈ dist.map Prod.fst := List.mem_map.mpr ⟨(o, 0), ho, rfl⟩
  by_cases h : cap < (dist.map Prod.fst).length
  · rw [seleccionar_trunc h]
    by_contra hno
    have hos : o ∈ sortLe (claveLe dist deg) (dist.map Prod.fst) :=
      mem_sortLe.mpr homem
    have hodrop : o ∈ (sortLe (claveLe dist deg) (dist.map Prod.fst)).drop cap := by
      rw [← List.take_append_drop cap (sortLe (claveLe dist deg) (dist.map Prod.fst))]
        at hos
      rcases List.mem_append.mp hos with h' | h'
      · exact absurd h' hno
      · exact h'
    have htlen :
        0 < ((sortLe (claveLe dist deg) (dist.map Prod.fst)).take cap).length := by
      rw [List.length_take, (sortLe_perm _ _).length_eq]
      omega
    obtain ⟨a, ha⟩ := List.exists_mem_of_length_pos htlen
    have hle : claveLe dist deg a o = true :=
      pairwise_take_drop
        (sortLe_pairwise _ (claveLe_total dist deg) (claveLe_trans dist deg) _)
        cap a ha o hodrop
    have h0 : lookupD dist o 0 = 0 := lookupD_eq ho hnd 0
    have hka : lookupD dist a 0 = 0 := by
      rw [claveLe_iff] at hle
      simp only [claveOrden] at hle
      omega
    have hamem : a ∈ dist.map Prod.fst := mem_sortLe.mp (List.mem_of_mem_take ha)
    have ham : (a, 0) ∈ dist := by
      have := lookupD_mem hamem 0
      rwa [hka] at this
    have hao : a = o := huniq a ham
    subst hao
    exact hno ha
  · rw [seleccionar_eq_of_le h]
    exact homem

/-- A reached node at strictly smaller distance than some selected node is
itself selected: the truncation is downward closed in distance. -/
lemma mem_seleccionar_of_lt {dist : List (ℕ × ℕ)} {deg : ℕ → ℕ} {cap : ℕ}
    {u w du dw : ℕ} (hnd : (dist.map Prod.fst).Nodup)
    (hu : (u, du) ∈ dist) (hw : (w, dw) ∈ dist) (hlt : dw < du)
    (husel : u ∈ seleccionar dist deg cap) :
    w ∈ seleccionar dist deg cap := by
  have hwmem : w ∈ dist.map Prod.fst := List.mem_map.mpr ⟨(w, dw), hw, rfl⟩
  by_cases h : cap < (dist.map Prod.fst).length
  · by_contra hwn
    have hle : claveLe dist deg u w = true :=
      seleccionar_key_le h u husel w hwmem hwn
    rw [claveLe_iff] at hle
    simp only [claveOrden] at hle
    rw [lookupD_eq hu hnd 0, lookupD_eq hw hnd 0] at hle
    omega
  · rw [seleccionar_eq_of_le h]
    exact hwmem

lemma bfsIter_succ (A : ℕ → Finset ℕ) (o t : ℕ) :
    bfsIter A o (t + 1) = stepBFS A (bfsIter A o t) := rfl

lemma runFrom_succ (A : ℕ → Finset ℕ) (s : BfsState) (t fuel : ℕ) :
    runFrom A s t (fuel + 1)
      = if (stepBFS A s).frontera = ∅
          then [(t + 1, (stepBFS A s).alcanzados.card)]
          else (t + 1, (stepBFS A s).alcanzados.card)
            :: runFrom A (stepBFS A s) (t + 1) fuel := rfl

/-- Shape of the step-loop records: one record per executed step, depths
consecutive, the loop stopping right after the first empty frontier. -/
lemma runFrom_spec (A : ℕ → Finset ℕ) (o : ℕ) :
    ∀ (fuel t : ℕ),
      ∃ k ≤ fuel,
        runFrom A (bfsIter A o t) t fuel
            = (List.range' (t + 1) k).map
                (fun d => (d, (bfsIter A o d).alcanzados.card)) ∧
          (∀ j, 1 ≤ j → j < k → (bfsIter A o (t + j)).frontera ≠ ∅) ∧
          (k < fuel → (bfsIter A o (t + k)).frontera = ∅) ∧
          (0 < fuel → 1 ≤ k) := by
  intro fuel
  induction fuel with
  | zero =>
    intro t
    exact ⟨0, le_refl 0, rfl, fun j h1 h2 => absurd h2 (by omega),
      fun h => absurd h (by omega), fun h => absurd h (by omega)⟩
  | succ fuel ih =>
    intro t
    by_cases hemp : (bfsIter A o (t + 1)).frontera = ∅
    · refine ⟨1, by omega, ?_, fun j h1 h2 => absurd h2 (by omega), fun _ => hemp,
        fun _ => le_refl 1⟩
      rw [runFrom_succ, ← bfsIter_succ, if_pos hemp]
      rfl
    · obtain ⟨k, hk, heq, hne, hstop, _⟩ := ih (t + 1)
      refine ⟨k + 1, by omega, ?_, ?_, ?_, fun _ => by omega⟩
      · rw [runFrom_succ, ← bfsIter_succ, if_neg hemp, heq, List.range'_succ]
        rfl
      · intro j h1 h2
        by_cases hj : j = 1
        · subst hj
          exact hemp
        · have harr : t + 1 + (j - 1) = t + j := by omega
          have := hne (j - 1) (by omega) (by omega)
          rwa [harr] at this
      · intro hk'
        have hfk := hstop (by omega)
        have harr : t + 1 + k = t + (k + 1) := by omega
        rwa [harr] at hfk

lemma capas_foldl_aux (mg : ℕ) (dist : List (ℕ × ℕ)) :
    ∀ acc : List (Finset ℕ), acc.length = mg + 1 →
      ((dist.foldl
          (fun capas p =>
            if p.2 ≤ mg then capas.set p.2 (insert p.1 (capas.getD p.2 ∅))
            else capas)
          acc).length = mg + 1 ∧
        ∀ u d, d ≤ mg →
          (u ∈ (dist.foldl
              (fun capas p =>
                if p.2 ≤ mg then capas.set p.2 (insert p.1 (capas.getD p.2 ∅))
                else capas)
              acc).getD d ∅ ↔ u ∈ acc.getD d ∅ ∨ (u, d) ∈ dist)) := by
  induction dist with
  | nil =>
    intro acc hlen
    exact ⟨hlen, by simp⟩
  | cons p ps ih =>
    intro acc hlen
    have hlen' :
        (if p.2 ≤ mg then acc.set p.2 (insert p.1 (acc.getD p.2 ∅)) else acc).length
          = mg + 1 := by
      split
      · rw [List.length_set]
        exact hlen
      · exact hlen
    obtain ⟨ihl, ihm⟩ := ih _ hlen'
    have hstep : ∀ u d, d ≤ mg →
        (u ∈ (if p.2 ≤ mg then acc.set p.2 (insert p.1 (acc.getD p.2 ∅))
              else acc).getD d ∅
          ↔ u ∈ acc.getD d ∅ ∨ (u, d) = p) := by
      intro u d hd
      by_cases hp : p.2 ≤ mg
      · rw [if_pos hp]
        by_cases hdp : d = p.2
        · subst hdp
          have hidx : p.2 < acc.length := by omega
          rw [List.getD_eq_getElem?_getD, List.getElem?_set_eq_of_lt _ hidx]
          simp only [Option.getD_some, Finset.mem_insert]
          constructor
          · rintro (rfl | hu)
            · exact Or.inr (Prod.ext_iff.mpr ⟨rfl, rfl⟩).symm
            · exact Or.inl hu
          · rintro (hu | heq)
            · exact Or.inr hu
            · exact Or.inl (congrArg Prod.fst heq)
        · rw [List.getD_eq_getElem?_getD,
            List.getElem?_set_ne (fun h => hdp h.symm),
            ← List.getD_eq_getElem?_getD]
          constructor
          · exact Or.inl
          · rintro (hu | heq)
            · exact hu
            · exact absurd (congrArg Prod.snd heq) hdp
      · rw [if_neg hp]
        have hne : (u, d) ≠ p := by
          intro h
          exact hp (congrArg Prod.snd h ▸ hd)
        constructor
        · exact Or.inl
        · rintro (hu | heq)
          · exact hu
          · exact absurd heq hne
    refine ⟨ihl, ?_⟩
    intro u d hd
    rw [List.foldl_cons, ihm u d hd, hstep u d hd, List.mem_cons]
    tauto

lemma construir_capas_length (dist : List (ℕ × ℕ)) (mg : ℕ) :
    (construir_capas dist mg).length = mg + 1 :=
  (capas_foldl_aux mg dist (List.replicate (mg + 1) ∅) (by simp)).1

lemma getD_replicate_empty (n d : ℕ) :
    (List.replicate n (∅ : Finset ℕ)).getD d ∅ = ∅ := by
  rw [List.getD_eq_getElem?_getD, List.getElem?_replicate]
  split <;> rfl

lemma mem_construir_capas {dist : List (ℕ × ℕ)} {mg u d : ℕ} (hd : d ≤ mg) :
    u ∈ (construir_capas dist mg).getD d ∅ ↔ (u, d) ∈ dist := by
  have h := (capas_foldl_aux mg dist (List.replicate (mg + 1) ∅) (by simp)).2 u d hd
  rw [construir_capas, h, getD_replicate_empty]
  simp

lemma construir_capas_getD_of_gt {dist : List (ℕ × ℕ)} {mg d : ℕ} (hd : mg < d) :
    (construir_capas dist mg).getD d ∅ = ∅ :=
  List.getD_eq_default _ _ (by rw [construir_capas_length]; omega)

/-- The per-frame recomputed union equals the incremental accumulation. -/
lemma descubiertosFrame_eq_incremental (capas : List (Finset ℕ)) (t : ℕ) :
    descubiertosFrame capas t = discoveredIncremental capas t := by
  induction t with
  | zero =>
    cases capas with
    | nil => rfl
    | cons c cs =>
      show (∅ ∪ c : Finset ℕ) = c
      exact Finset.empty_union c
  | succ t ih =>
    rw [descubiertosFrame, List.take_succ, List.foldl_append]
    rw [descubiertosFrame] at ih
    rw [ih]
    show _ = discoveredIncremental capas t ∪ capas.getD (t + 1) ∅
    rw [List.getD_eq_getElem?_getD]
    cases h : capas[t + 1]? with
    | none =>
      show discoveredIncremental capas t = _
      rw [Option.getD_none, Finset.union_empty]
    | some s =>
      show discoveredIncremental capas t ∪ s = _
      rw [Option.getD_some]

lemma mem_subgrafo_fst {E : List (ℕ × ℕ)} {o cutoff cap u : ℕ} :
    u ∈ (subgrafo_por_grados E o cutoff cap).1 ↔
      u ∈ seleccionar (shortestPathLengths (adjOf E) o cutoff) (degOf E) cap ∧
        u ∈ nodesOf E := by
  simp only [subgrafo_por_grados]
  rw [List.mem_filter]
  simp

lemma mem_subgrafo_snd {E : List (ℕ × ℕ)} {o cutoff cap u d : ℕ} :
    (u, d) ∈ (subgrafo_por_grados E o cutoff cap).2 ↔
      (u, d) ∈ shortestPathLengths (adjOf E) o cutoff ∧
        u ∈ (subgrafo_por_grados E o cutoff cap).1 := by
  simp only [subgrafo_por_grados]
  rw [List.mem_filter]
  simp

lemma mem_frontera_nodes {E : List (ℕ × ℕ)} {o w t : ℕ}
    (hw : w ∈ (bfsIter (adjF (adjOf E)) o (t + 1)).frontera) : w ∈ nodesOf E := by
  have hw' : w ∈ ((bfsIter (adjF (adjOf E)) o t).frontera.biUnion (adjF (adjOf E)))
      \ (bfsIter (adjF (adjOf E)) o t).alcanzados := hw
  rcases Finset.mem_biUnion.mp (Finset.mem_sdiff.mp hw').1 with ⟨x, _, hwx⟩
  have hwx' : w ∈ (adjOf E x).toFinset := hwx
  exact (adjOf_mem_nodesOf (List.mem_toFinset.mp hwx')).2

lemma origin_mem_nodes_of_front_one {E : List (ℕ × ℕ)} {o : ℕ}
    (h : (bfsIter (adjF (adjOf E)) o 1).frontera ≠ ∅) : o ∈ nodesOf E := by
  obtain ⟨w, hw⟩ := Finset.nonempty_iff_ne_empty.mpr h
  have hw' : w ∈ (({o} : Finset ℕ).biUnion (adjF (adjOf E))) \ ({o} : Finset ℕ) := hw
  rcases Finset.mem_biUnion.mp (Finset.mem_sdiff.mp hw').1 with ⟨x, hx, hwx⟩
  have hxo : x = o := Finset.mem_singleton.mp hx
  subst hxo
  have hwx' : w ∈ (adjOf E x).toFinset := hwx
  exact (adjOf_mem_nodesOf (List.mem_toFinset.mp hwx')).1

lemma dist_zero_unique {E : List (ℕ × ℕ)} {o cutoff v : ℕ}
    (h : (v, 0) ∈ shortestPathLengths (adjOf E) o cutoff) : v = o := by
  have h2 := ((mem_shortestPathLengths (adjOf E) o cutoff v 0).mp h).2
  exact Finset.mem_singleton.mp h2

/-- C1: the layered BFS assigns distance 0 to the origin; a node is recorded
at distance d exactly when d is within the cutoff and its shortest walk from
the origin has exactly d hops; layer 0 is exactly the origin; distinct layers
are pairwise disjoint; and the layers up to depth t union to the reached set. -/
theorem c1_bfs_layering (E : List (ℕ × ℕ)) (o cutoff : ℕ) (_ho : o ∈ nodesOf E) :
    (o, 0) ∈ shortestPathLengths (adjOf E) o cutoff ∧
      (bfsIter (adjF (adjOf E)) o 0).frontera = {o} ∧
      (∀ v d, ((v, d) ∈ shortestPathLengths (adjOf E) o cutoff ↔
        (d ≤ cutoff ∧ Walk (adjF (adjOf E)) o v d ∧
          ∀ m, m < d → ¬ Walk (adjF (adjOf E)) o v m))) ∧
      (∀ d d', d ≠ d' →
        (bfsIter (adjF (adjOf E)) o d).frontera
            ∩ (bfsIter (adjF (adjOf E)) o d').frontera = ∅) ∧
      ∀ t, (Finset.range (t + 1)).biUnion
            (fun d => (bfsIter (adjF (adjOf E)) o d).frontera)
          = (bfsIter (adjF (adjOf E)) o t).alcanzados := by
  refine ⟨?_, rfl, ?_, fun d d' h => frontera_disjoint _ o h,
    fun t => biUnion_frontera _ o t⟩
  · obtain ⟨tl, htl⟩ := shortestPathLengths_head (adjOf E) o cutoff
    rw [htl]
    exact List.mem_cons_self _ _
  · intro v d
    rw [mem_shortestPathLengths, mem_frontera_iff]

/-- C2: with cap ≥ 1, if the number of reached nodes is at most the cap the
sampler returns the full reached list unchanged; otherwise it returns exactly
cap nodes, and every selected node's key (distance, -degree) is
lexicographically at most every non-selected reached node's key. -/
theorem c2_sampler_cap (dist : List (ℕ × ℕ)) (deg : ℕ → ℕ) (cap : ℕ)
    (_hcap : 1 ≤ cap) :
    (dist.length ≤ cap → seleccionar dist deg cap = dist.map Prod.fst) ∧
      (cap < dist.length →
        (seleccionar dist deg cap).length = cap ∧
          ∀ u ∈ seleccionar dist deg cap, ∀ v ∈ dist.map Prod.fst,
            v ∉ seleccionar dist deg cap →
              (lookupD dist u 0 < lookupD dist v 0 ∨
                (lookupD dist u 0 = lookupD dist v 0 ∧
                  -(deg u : ℤ) ≤ -(deg v : ℤ)))) := by
  constructor
  · intro hle
    apply seleccionar_eq_of_le
    rw [List.length_map]
    omega
  · intro hlt
    have hlt' : cap < (dist.map Prod.fst).length := by
      rw [List.length_map]
      exact hlt
    refine ⟨seleccionar_length_trunc hlt', ?_⟩
    intro u hu v hv hvn
    have h := seleccionar_key_le hlt' u hu v hv hvn
    rw [claveLe_iff] at h
    simpa [claveOrden] using h

/-- C8: for every layer list and depth, the discovered set recomputed per
frame as the union of layers 0..t (the source's form) equals the incremental
prefix accumulation discovered(t) = discovered(t-1) ∪ layer(t) (the spec's
form); the two differ only in cost, never in output. -/
theorem c8_discovered_refinement (capas : List (Finset ℕ)) (t : ℕ) :
    descubiertosFrame capas t = discoveredIncremental capas t :=
  descubiertosFrame_eq_incremental capas t

/-- C9: the sampler is deterministic and depends only on its stated inputs:
two runs with the same distance map, caps, and degree data on the reached
nodes produce element-wise identical selected lists. -/
theorem c9_sampler_deterministic (dist : List (ℕ × ℕ)) (deg deg' : ℕ → ℕ)
    (cap : ℕ) (h : ∀ u ∈ dist.map Prod.fst, deg u = deg' u) :
    seleccionar dist deg cap = seleccionar dist deg' cap := by
  simp only [seleccionar]
  have hle : ∀ a ∈ dist.map Prod.fst, ∀ b ∈ dist.map Prod.fst,
      claveLe dist deg a b = claveLe dist deg' a b := by
    intro a ha b hb
    simp [claveLe, claveOrden, h a ha, h b hb]
  rw [sortLe_congr _ _ _ hle]

/-- C4 (amended): when the requested origin id is not a node of the graph,
elegir_origen does not fail; it silently replaces the request with a
(pseudo-randomly) chosen node of the graph, so the result is a graph node
different from the requested id. -/
theorem c4_invalid_origin_fallback (E : List (ℕ × ℕ)) (s pick : ℕ)
    (hs : s ∉ nodesOf E) (hne : nodesOf E ≠ []) :
    elegir_origen E (some s) pick ∈ nodesOf E ∧
      elegir_origen E (some s) pick ≠ s := by
  have hlen : 0 < (nodesOf E).length := List.length_pos.mpr hne
  have hidx : pick % (nodesOf E).length < (nodesOf E).length :=
    Nat.mod_lt _ hlen
  have hmem : (nodesOf E).getD (pick % (nodesOf E).length) 0 ∈ nodesOf E := by
    rw [List.getD_eq_getElem _ _ hidx]
    exact List.getElem_mem hidx
  have heq : elegir_origen E (some s) pick
      = (nodesOf E).getD (pick % (nodesOf E).length) 0 := by
    simp [elegir_origen, hs]
  rw [heq]
  exact ⟨hmem, fun h => hs (h ▸ hmem)⟩

/-- C5 (amended): a cap of 0 (cap < 1) is not rejected: since the reached set
always contains the origin, the truncation branch fires and the sampler
silently returns the empty subgraph with an empty distance map. -/
theorem c5_cap_zero_silent (E : List (ℕ × ℕ)) (o cutoff : ℕ) :
    subgrafo_por_grados E o cutoff 0 = ([], []) := by
  obtain ⟨tl, htl⟩ := shortestPathLengths_head (adjOf E) o cutoff
  have hlen :
      0 < ((shortestPathLengths (adjOf E) o cutoff).map Prod.fst).length := by
    rw [htl]
    simp
  have hsel :
      seleccionar (shortestPathLengths (adjOf E) o cutoff) (degOf E) 0 = [] := by
    rw [seleccionar_trunc hlen]
    rfl
  simp only [subgrafo_por_grados]
  rw [hsel]
  simp

/-- C6 (amended): the metrics stream has exactly one record (depth, people
reached) per depth 0..e, in depth order; every frontier strictly before e is
non-empty, and when the run stopped before the step budget it is because the
frontier at e is empty. Hence the last record sits at the first empty-frontier
depth, one past the last depth with a non-empty frontier. -/
theorem c6_metrics_stream (A : ℕ → Finset ℕ) (o maxSteps : ℕ) :
    ∃ e ≤ maxSteps,
      runModel A o maxSteps
          = (List.range (e + 1)).map
              (fun d => (d, (bfsIter A o d).alcanzados.card)) ∧
        (∀ d, d < e → (bfsIter A o d).frontera ≠ ∅) ∧
        (e < maxSteps → (bfsIter A o e).frontera = ∅) := by
  obtain ⟨k, hk, heq, hne, hstop, _⟩ := runFrom_spec A o maxSteps 0
  refine ⟨k, hk, ?_, ?_, ?_⟩
  · rw [runModel, heq, List.range_eq_range', List.range'_succ]
    rfl
  · intro d hd
    cases d with
    | zero => exact Finset.singleton_ne_empty o
    | succ d' =>
      have h := hne (d' + 1) (by omega) (by omega)
      rwa [Nat.zero_add] at h
  · intro he
    have h := hstop (by omega)
    rwa [Nat.zero_add] at h

/-- C7: once a frontier is empty, exploration never resumes: every later
set-model frontier is empty, and in the per-depth layer lists built from the
(possibly cap-truncated) distance map of subgrafo_por_grados an empty layer is
followed only by empty layers. -/
theorem c7_exhaustion_permanent :
    (∀ (A : ℕ → Finset ℕ) (o d k : ℕ),
        (bfsIter A o d).frontera = ∅ → (bfsIter A o (d + k)).frontera = ∅) ∧
      ∀ (E : List (ℕ × ℕ)) (o cutoff cap mg t t' : ℕ), t < t' → t' ≤ mg →
        (construir_capas (subgrafo_por_grados E o cutoff cap).2 mg).getD t ∅ = ∅ →
        (construir_capas (subgrafo_por_grados E o cutoff cap).2 mg).getD t' ∅
          = ∅ := by
  constructor
  · exact fun A o d k h => frontera_empty_absorb A o h k
  · intro E o cutoff cap mg t t' htt hmg hempty
    by_contra hne
    obtain ⟨u, hu⟩ := Finset.nonempty_iff_ne_empty.mpr hne
    have hu2 := (mem_construir_capas (by omega)).mp hu
    obtain ⟨hudist, huH⟩ := mem_subgrafo_snd.mp hu2
    obtain ⟨ht'c, hufr⟩ := (mem_shortestPathLengths _ o cutoff u t').mp hudist
    have hfront_t : (bfsIter (adjF (adjOf E)) o t).frontera ≠ ∅ := by
      intro hemp
      have h := frontera_empty_ge _ o hemp (le_of_lt htt)
      rw [h] at hufr
      exact absurd hufr (Finset.not_mem_empty u)
    obtain ⟨w, hw⟩ := Finset.nonempty_iff_ne_empty.mpr hfront_t
    have hwdist : (w, t) ∈ shortestPathLengths (adjOf E) o cutoff :=
      (mem_shortestPathLengths _ o cutoff w t).mpr ⟨by omega, hw⟩
    obtain ⟨husel, hunodes⟩ := mem_subgrafo_fst.mp huH
    have hwsel := mem_seleccionar_of_lt
      (shortestPathLengths_keys_nodup (adjOf E) o cutoff) hudist hwdist htt husel
    have hwnodes : w ∈ nodesOf E := by
      cases t with
      | zero =>
        have hwo : w = o := Finset.mem_singleton.mp hw
        subst hwo
        apply origin_mem_nodes_of_front_one (E := E)
        intro hemp1
        have h := frontera_empty_ge _ w hemp1 (show 1 ≤ t' by omega)
        rw [h] at hufr
        exact absurd hufr (Finset.not_mem_empty u)
      | succ t0 => exact mem_frontera_nodes hw
    have hwH : w ∈ (subgrafo_por_grados E o cutoff cap).1 :=
      mem_subgrafo_fst.mpr ⟨hwsel, hwnodes⟩
    have hwsnd : (w, t) ∈ (subgrafo_por_grados E o cutoff cap).2 :=
      mem_subgrafo_snd.mpr ⟨hwdist, hwH⟩
    have hwcap : w ∈ (construir_capas (subgrafo_por_grados E o cutoff cap).2
        mg).getD t ∅ :=
      (mem_construir_capas (by omega)).mpr hwsnd
    rw [hempty] at hwcap
    exact absurd hwcap (Finset.not_mem_empty w)

/-- C10: with a valid origin and cap ≥ 1 the sampled subgraph always contains
the origin, and the restricted distance map is defined on exactly the
subgraph's node set. -/
theorem c10_origin_in_subgraph (E : List (ℕ × ℕ)) (o cutoff cap : ℕ)
    (ho : o ∈ nodesOf E) (hcap : 1 ≤ cap) :
    o ∈ (subgrafo_por_grados E o cutoff cap).1 ∧
      ∀ u, (u ∈ (subgrafo_por_grados E o cutoff cap).2.map Prod.fst ↔
        u ∈ (subgrafo_por_grados E o cutoff cap).1) := by
  obtain ⟨tl, htl⟩ := shortestPathLengths_head (adjOf E) o cutoff
  have ho0 : (o, 0) ∈ shortestPathLengths (adjOf E) o cutoff := by
    rw [htl]
    exact List.mem_cons_self _ _
  have hnd := shortestPathLengths_keys_nodup (adjOf E) o cutoff
  have hosel :
      o ∈ seleccionar (shortestPathLengths (adjOf E) o cutoff) (degOf E) cap :=
    mem_seleccionar_of_min hcap ho0 hnd (fun v hv => dist_zero_unique hv)
  refine ⟨mem_subgrafo_fst.mpr ⟨hosel, ho⟩, ?_⟩
  intro u
  constructor
  · intro hu
    rcases List.mem_map.mp hu with ⟨p, hp, hpu⟩
    have hp' : (p.1, p.2) ∈ (subgrafo_por_grados E o cutoff cap).2 := by
      rw [Prod.mk.eta]
      exact hp
    have h2 := (mem_subgrafo_snd.mp hp').2
    rw [hpu] at h2
    exact h2
  · intro hu
    obtain ⟨husel, _⟩ := mem_subgrafo_fst.mp hu
    have hukeys : u ∈ (shortestPathLengths (adjOf E) o cutoff).map Prod.fst :=
      seleccionar_subset _ _ _ u husel
    rcases List.mem_map.mp hukeys with ⟨q, hq, hqu⟩
    refine List.mem_map.mpr ⟨q, ?_, hqu⟩
    have hq' : (q.1, q.2) ∈ shortestPathLengths (adjOf E) o cutoff := by
      rw [Prod.mk.eta]
      exact hq
    have hq1 : q.1 ∈ (subgrafo_por_grados E o cutoff cap).1 := by
      rw [hqu]
      exact hu
    have hmem := mem_subgrafo_snd.mpr ⟨hq', hq1⟩
    rwa [Prod.mk.eta] at hmem

/-- C1 witness: the layering theorem instantiated on the spec's star graph
with origin 0 and cutoff 6. -/
theorem c1_bfs_layering_witness :
    0 ∈ nodesOf Estar ∧
      ((0, 0) ∈ shortestPathLengths (adjOf Estar) 0 6 ∧
        (bfsIter (adjF (adjOf Estar)) 0 0).frontera = {0} ∧
        (∀ v d, ((v, d) ∈ shortestPathLengths (adjOf Estar) 0 6 ↔
          (d ≤ 6 ∧ Walk (adjF (adjOf Estar)) 0 v d ∧
            ∀ m, m < d → ¬ Walk (adjF (adjOf Estar)) 0 v m))) ∧
        (∀ d d', d ≠ d' →
          (bfsIter (adjF (adjOf Estar)) 0 d).frontera
              ∩ (bfsIter (adjF (adjOf Estar)) 0 d').frontera = ∅) ∧
        ∀ t, (Finset.range (t + 1)).biUnion
              (fun d => (bfsIter (adjF (adjOf Estar)) 0 d).frontera)
            = (bfsIter (adjF (adjOf Estar)) 0 t).alcanzados) :=
  ⟨by decide, c1_bfs_layering Estar 0 6 (by decide)⟩

/-- C2 witness: the sampler contract instantiated on the two-node distance
map [(0,0), (1,1)] with the star graph's degrees and cap 1. -/
theorem c2_sampler_cap_witness :
    1 ≤ 1 ∧
      ((([(0, 0), (1, 1)] : List (ℕ × ℕ)).length ≤ 1 →
          seleccionar [(0, 0), (1, 1)] (degOf Estar) 1
            = ([(0, 0), (1, 1)] : List (ℕ × ℕ)).map Prod.fst) ∧
        (1 < ([(0, 0), (1, 1)] : List (ℕ × ℕ)).length →
          (seleccionar [(0, 0), (1, 1)] (degOf Estar) 1).length = 1 ∧
            ∀ u ∈ seleccionar [(0, 0), (1, 1)] (degOf Estar) 1,
              ∀ v ∈ ([(0, 0), (1, 1)] : List (ℕ × ℕ)).map Prod.fst,
                v ∉ seleccionar [(0, 0), (1, 1)] (degOf Estar) 1 →
                  (lookupD [(0, 0), (1, 1)] u 0 < lookupD [(0, 0), (1, 1)] v 0 ∨
                    (lookupD [(0, 0), (1, 1)] u 0
                        = lookupD [(0, 0), (1, 1)] v 0 ∧
                      -(degOf Estar u : ℤ) ≤ -(degOf Estar v : ℤ))))) :=
  ⟨by decide, c2_sampler_cap [(0, 0), (1, 1)] (degOf Estar) 1 (by decide)⟩

/-- C3 counterexample: in the star centre with spokes inserted as 3, 2, 1,
nodes 1 and 3 both sit at distance 1 with equal degree, yet the sampler keeps
node 3 and drops node 1 — under the claimed node-id-ascending tie-break,
node 1 would have had to be selected before node 3. -/
theorem c3_id_tiebreak_counterexample :
    (subgrafo_por_grados Eperm 0 6 2).1 = [0, 3] ∧
      (1, 1) ∈ shortestPathLengths (adjOf Eperm) 0 6 ∧
      (3, 1) ∈ shortestPathLengths (adjOf Eperm) 0 6 ∧
      degOf Eperm 1 = degOf Eperm 3 ∧
      1 ∉ (subgrafo_por_grados Eperm 0 6 2).1 := by decide

/-- C3 (amended): ties after (distance ascending, degree descending) are
broken by the stable sort's input order, i.e. BFS discovery order, which
follows the edge-insertion order of the adjacency dicts, not node ids. On the
star graph with edges inserted in the order 0-1, 0-2, 0-3, 1-4, origin 0 and
cap 3, discovery order coincides with id order and the selection is
0, then 1 by the degree tie-break, then 2. -/
theorem c3_discovery_order_tiebreak :
    (subgrafo_por_grados Estar 0 6 3).1 = [0, 1, 2] ∧
      (subgrafo_por_grados Estar 0 6 3).2 = [(0, 0), (1, 1), (2, 1)] := by decide

/-- C4 counterexample: on the one-edge graph 0-1 the requested origin 5 is
not a node, yet elegir_origen raises no error and returns node 0. -/
theorem c4_invalid_origin_counterexample :
    5 ∉ nodesOf [(0, 1)] ∧
      elegir_origen [(0, 1)] (some 5) 0 = 0 ∧
      0 ∈ nodesOf [(0, 1)] := by decide

/-- C4 witness: the fallback theorem instantiated on the one-edge graph with
requested origin 5 and pick 3. -/
theorem c4_invalid_origin_fallback_witness :
    (5 ∉ nodesOf [(0, 1)] ∧ nodesOf [(0, 1)] ≠ []) ∧
      (elegir_origen [(0, 1)] (some 5) 3 ∈ nodesOf [(0, 1)] ∧
        elegir_origen [(0, 1)] (some 5) 3 ≠ 5) :=
  ⟨⟨by decide, by decide⟩,
    c4_invalid_origin_fallback [(0, 1)] 5 3 (by decide) (by decide)⟩

/-- C5 counterexample: with cap 0 on the star graph the sampler raises no
error and silently produces the empty subgraph and empty distance map. -/
theorem c5_cap_zero_counterexample :
    subgrafo_por_grados Estar 0 6 0 = ([], []) := by decide

/-- C6 counterexample: on the star graph the frontier at depth 2 is the last
non-empty one, yet the run emits a fourth record at depth 3 — one record past
the claimed stop depth — before stopping. -/
theorem c6_stop_record_counterexample :
    runModel (adjF (adjOf Estar)) 0 7 = [(0, 1), (1, 4), (2, 5), (3, 5)] ∧
      (bfsIter (adjF (adjOf Estar)) 0 2).frontera ≠ ∅ ∧
      (bfsIter (adjF (adjOf Estar)) 0 3).frontera = ∅ := by decide

/-- C7 witness: both parts instantiated on the star graph — the set-model
frontier is empty at depth 3 and stays empty, and in the untruncated layer
list the empty layer 3 is followed by an empty layer 5. -/
theorem c7_exhaustion_permanent_witness :
    ((bfsIter (adjF (adjOf Estar)) 0 3).frontera = ∅ ∧
      (bfsIter (adjF (adjOf Estar)) 0 (3 + 2)).frontera = ∅) ∧
      (3 < 5 ∧ 5 ≤ 6 ∧
        (construir_capas (subgrafo_por_grados Estar 0 6 5).2 6).getD 3 ∅ = ∅ ∧
        (construir_capas (subgrafo_por_grados Estar 0 6 5).2 6).getD 5 ∅ = ∅) :=
  ⟨⟨by decide, c7_exhaustion_permanent.1 (adjF (adjOf Estar)) 0 3 2 (by decide)⟩,
    ⟨by decide, by decide, by decide,
      c7_exhaustion_permanent.2 Estar 0 6 5 6 3 5 (by decide) (by decide)
        (by decide)⟩⟩

/-- C9 witness: two degree functions that agree on the reached nodes 0 and 1
but differ elsewhere give the same selection. -/
theorem c9_sampler_deterministic_witness :
    (∀ u ∈ ([(0, 0), (1, 1)] : List (ℕ × ℕ)).map Prod.fst,
        degOf Eperm u = (fun w => if w ≤ 1 then degOf Eperm w else 42) u) ∧
      seleccionar [(0, 0), (1, 1)] (degOf Eperm) 1
        = seleccionar [(0, 0), (1, 1)]
            (fun w => if w ≤ 1 then degOf Eperm w else 42) 1 :=
  ⟨by decide, c9_sampler_deterministic [(0, 0), (1, 1)] (degOf Eperm)
    (fun w => if w ≤ 1 then degOf Eperm w else 42) 1 (by decide)⟩

/-- C10 witness: on the star graph with origin 0 and cap 3 the origin is kept
and the restricted distance map covers exactly the subgraph nodes. -/
theorem c10_origin_in_subgraph_witness :
    (0 ∈ nodesOf Estar ∧ 1 ≤ 3) ∧
      (0 ∈ (subgrafo_por_grados Estar 0 6 3).1 ∧
        ∀ u, (u ∈ (subgrafo_por_grados Estar 0 6 3).2.map Prod.fst ↔
          u ∈ (subgrafo_por_grados Estar 0 6 3).1)) :=
  ⟨⟨by decide, by decide⟩, c10_origin_in_subgraph Estar 0 6 3 (by decide) (by decide)⟩
